import Mathlib

/-!
Verification of the trade listing & aggregation view (`trade_list` in
`journal/views.py`) of the Trading-Journal repository.

The data model and the computation are embedded shallowly: each record type
becomes a structure, decimals become rationals, nullable decimals become
`Option ℚ`, and the sorted queryset becomes a sorted list.  The Django
`order_by` call is modelled by a stable insertion sort over the comparison
that the `order_by` argument string denotes.
-/

/-- A `Trade` record: owner, symbol, entry date (timestamp), status
(`"OPEN"` or `"CLOSED"`), entry price, quantity and nullable realized pnl. -/
structure Trade where
  user : Nat
  symbol : String
  entry_date : Int
  status : String
  entry_price : ℚ
  quantity : ℚ
  pnl : Option ℚ
deriving DecidableEq, Repr

/-- A `Strategy` record: a simple named record owned by a user. -/
structure Strategy where
  user : Nat
  name : String
deriving DecidableEq, Repr

/-- A `TradeImage` record: belongs to one trade, holds a file reference,
a caption and a creation timestamp. -/
structure TradeImage where
  trade_id : Nat
  image : String
  caption : String
  created_at : Int
deriving DecidableEq, Repr

/-- A `Portfolio` record: optional one-to-one companion of a user holding
the current balance. -/
structure Portfolio where
  user : Nat
  current_balance : ℚ
deriving DecidableEq, Repr

/-- The persisted state visible to the view: all four record tables. -/
structure Db where
  trades : List Trade
  strategies : List Strategy
  trade_images : List TradeImage
  portfolios : List Portfolio
deriving DecidableEq, Repr

/-- An HTTP request as the view consumes it: the authenticated user and the
two optional query-string parameters (`None` when absent). -/
structure Request where
  user_id : Nat
  sort_by_param : Option String
  order_param : Option String
deriving DecidableEq, Repr

/-- The view model handed to the template (the `context` dict). -/
structure Context where
  trades : List Trade
  current_sort : String
  current_order : String
  total_pnl : ℚ
  net_worth : ℚ
  win_rate : ℚ
  best_performer : Option Trade
  total_investment : ℚ
deriving DecidableEq, Repr

/-- The `sort_field` local of `trade_list`: `"symbol"` and `"status"` map to
themselves, everything else maps to `"-entry_date"`. -/
def sort_field_of (sort_by : String) : String :=
  if sort_by = "symbol" then "symbol"
  else if sort_by = "status" then "status"
  else "-entry_date"

/-- The argument that `trade_list` passes to `order_by`: for `"symbol"` and
`"status"`, the field itself when `order == "asc"` and the `-`-prefixed field
otherwise; in the fallback case the already negated `sort_field`. -/
def order_by_arg (sort_by order : String) : String :=
  if sort_by = "symbol" ∨ sort_by = "status" then
    if order = "asc" then sort_field_of sort_by
    else "-" ++ sort_field_of sort_by
  else sort_field_of sort_by

/-- The comparison denoted by a Django `order_by` argument string: a leading
`-` flips the direction on the named field. -/
def tradeLe (arg : String) (a b : Trade) : Bool :=
  if arg = "symbol" then decide (a.symbol ≤ b.symbol)
  else if arg = "-symbol" then decide (b.symbol ≤ a.symbol)
  else if arg = "status" then decide (a.status ≤ b.status)
  else if arg = "-status" then decide (b.status ≤ a.status)
  else if arg = "entry_date" then decide (a.entry_date ≤ b.entry_date)
  else decide (b.entry_date ≤ a.entry_date)

/-- `qs.order_by(arg)`: the records sorted by the comparison `arg` denotes. -/
def order_trades (arg : String) (trades : List Trade) : List Trade :=
  @List.insertionSort Trade (fun a b => tradeLe arg a b = true)
    (fun _ _ => instDecidableEqBool _ _) trades

/-- The whole sorting phase of `trade_list`: resolve the `order_by` argument
from the two request parameters, then sort. -/
def sortTrades (trades : List Trade) (sort_by order : String) : List Trade :=
  order_trades (order_by_arg sort_by order) trades

/-- `sum(trade.pnl for trade in trades if trade.pnl is not None)`. -/
def total_pnl (trades : List Trade) : ℚ :=
  (trades.filterMap (fun t => t.pnl)).sum

/-- `sum(trade.entry_price * trade.quantity for trade in trades)`. -/
def total_investment (trades : List Trade) : ℚ :=
  (trades.map (fun t => t.entry_price * t.quantity)).sum

/-- `[trade for trade in trades if trade.status == 'CLOSED']`. -/
def closed_trades (trades : List Trade) : List Trade :=
  trades.filter (fun t => t.status == "CLOSED")

/-- `[trade for trade in closed_trades if trade.pnl and trade.pnl > 0]`:
Python truthiness drops a `None` and a `0` pnl before the `> 0` test. -/
def winning_trades (trades : List Trade) : List Trade :=
  (closed_trades trades).filter (fun t =>
    match t.pnl with
    | none => false
    | some p => !(decide (p = 0)) && decide (0 < p))

/-- `(len(winning_trades) / len(closed_trades) * 100) if closed_trades else 0`. -/
def win_rate (trades : List Trade) : ℚ :=
  if closed_trades trades ≠ [] then
    ((winning_trades trades).length : ℚ) / ((closed_trades trades).length : ℚ) * 100
  else 0

/-- The generator `(trade for trade in closed_trades if trade.pnl is not None)`
fed to `max`. -/
def closed_with_pnl (trades : List Trade) : List Trade :=
  (closed_trades trades).filter (fun t => t.pnl.isSome)

/-- `max(..., key=lambda t: t.pnl, default=None)`: Python's `max` scans left to
right and replaces the current best only on a strictly larger key, so ties keep
the first maximum; an empty iterable yields the default `None`. -/
def best_performer (trades : List Trade) : Option Trade :=
  match closed_with_pnl trades with
  | [] => none
  | t :: ts =>
      some (ts.foldl (fun b u => if b.pnl.getD 0 < u.pnl.getD 0 then u else b) t)

/-- `portfolio.current_balance if portfolio else 0`. -/
def net_worth (portfolio : Option Portfolio) : ℚ :=
  match portfolio with
  | some p => p.current_balance
  | none => 0

/-- The `trade_list` view: filter the user's trades, resolve and apply the
requested sort, compute the aggregates and the portfolio balance, and return
the view model.  The persisted state is returned unchanged: the handler only
reads. -/
def trade_list (db : Db) (req : Request) : Context × Db :=
  let owned := db.trades.filter (fun t => t.user == req.user_id)
  let sort_by := req.sort_by_param.getD "entry_date"
  let order := req.order_param.getD "desc"
  let trades := sortTrades owned sort_by order
  let portfolio := db.portfolios.find? (fun p => p.user == req.user_id)
  (⟨trades, sort_by, order, total_pnl trades, net_worth portfolio,
    win_rate trades, best_performer trades, total_investment trades⟩, db)

/-! ### Shared lemmas about the sorting phase -/

lemma tradeLe_total (arg : String) (a b : Trade) :
    tradeLe arg a b = true ∨ tradeLe arg b a = true := by
  unfold tradeLe
  split_ifs <;> simp <;> exact le_total _ _

lemma tradeLe_trans (arg : String) (a b c : Trade) :
    tradeLe arg a b = true → tradeLe arg b c = true → tradeLe arg a c = true := by
  unfold tradeLe
  split_ifs <;> simp <;> intro h1 h2 <;>
    first
      | exact le_trans h1 h2
      | exact le_trans h2 h1

lemma sorted_order_trades (arg : String) (trades : List Trade) :
    (order_trades arg trades).Pairwise (fun a b => tradeLe arg a b = true) := by
  haveI : IsTotal Trade (fun a b => tradeLe arg a b = true) := ⟨tradeLe_total arg⟩
  haveI : IsTrans Trade (fun a b => tradeLe arg a b = true) := ⟨tradeLe_trans arg⟩
  exact List.sorted_insertionSort _ trades

lemma perm_order_trades (arg : String) (trades : List Trade) :
    (order_trades arg trades).Perm trades :=
  List.perm_insertionSort _ trades

lemma sortTrades_fallback (trades : List Trade) (sort_by order : String)
    (h1 : sort_by ≠ "symbol") (h2 : sort_by ≠ "status") :
    sortTrades trades sort_by order = order_trades "-entry_date" trades := by
  simp [sortTrades, order_by_arg, sort_field_of, h1, h2]

lemma pairwise_entry_date_desc (trades : List Trade) :
    (order_trades "-entry_date" trades).Pairwise
      (fun a b => b.entry_date ≤ a.entry_date) := by
  refine (sorted_order_trades "-entry_date" trades).imp ?_
  intro a b h
  simpa [tradeLe] using h

/-! ### Claim theorems -/

/-- C1: sort resolution of `trade_list`: `sort_by == "symbol"` sorts on symbol,
`sort_by == "status"` sorts on status, any other value (the default
`"entry_date"` included) sorts by entry date descending ignoring `order`; on
symbol/status, `order == "asc"` sorts ascending and any other order value sorts
descending.  The output is always a permutation of the input. -/
theorem sort_resolution_correct (trades : List Trade) (sort_by order : String) :
    (sortTrades trades sort_by order).Perm trades ∧
    (sort_by ≠ "symbol" → sort_by ≠ "status" →
      sortTrades trades sort_by order = sortTrades trades "entry_date" "desc" ∧
      (sortTrades trades sort_by order).Pairwise
        (fun a b => b.entry_date ≤ a.entry_date)) ∧
    (sort_by = "symbol" →
      (order = "asc" →
        (sortTrades trades sort_by order).Pairwise
          (fun a b => a.symbol ≤ b.symbol)) ∧
      (order ≠ "asc" →
        (sortTrades trades sort_by order).Pairwise
          (fun a b => b.symbol ≤ a.symbol))) ∧
    (sort_by = "status" →
      (order = "asc" →
        (sortTrades trades sort_by order).Pairwise
          (fun a b => a.status ≤ b.status)) ∧
      (order ≠ "asc" →
        (sortTrades trades sort_by order).Pairwise
          (fun a b => b.status ≤ a.status))) := by
  refine ⟨perm_order_trades _ _, ?_, ?_, ?_⟩
  · intro h1 h2
    rw [sortTrades_fallback trades sort_by order h1 h2,
      sortTrades_fallback trades "entry_date" "desc" (by decide) (by decide)]
    exact ⟨rfl, pairwise_entry_date_desc trades⟩
  · rintro rfl
    constructor
    · rintro rfl
      have harg : order_by_arg "symbol" "asc" = "symbol" := by
        simp [order_by_arg, sort_field_of]
      rw [sortTrades, harg]
      refine (sorted_order_trades "symbol" trades).imp ?_
      intro a b h
      simpa [tradeLe] using h
    · intro hord
      have harg : order_by_arg "symbol" order = "-symbol" := by
        simp [order_by_arg, sort_field_of, hord]
      rw [sortTrades, harg]
      refine (sorted_order_trades "-symbol" trades).imp ?_
      intro a b h
      simpa [tradeLe] using h
  · rintro rfl
    constructor
    · rintro rfl
      have harg : order_by_arg "status" "asc" = "status" := by
        simp [order_by_arg, sort_field_of]
      rw [sortTrades, harg]
      refine (sorted_order_trades "status" trades).imp ?_
      intro a b h
      simpa [tradeLe] using h
    · intro hord
      have harg : order_by_arg "status" order = "-status" := by
        simp [order_by_arg, sort_field_of, hord]
      rw [sortTrades, harg]
      refine (sorted_order_trades "-status" trades).imp ?_
      intro a b h
      simpa [tradeLe] using h

/-- Replacing the status field of a trade, leaving everything else intact. -/
def set_status (t : Trade) (s : String) : Trade :=
  ⟨t.user, t.symbol, t.entry_date, s, t.entry_price, t.quantity, t.pnl⟩

lemma filterMap_pnl_eq (trades : List Trade) :
    trades.filterMap (fun t => t.pnl) =
      (trades.filter (fun t => t.pnl.isSome)).map (fun t => t.pnl.getD 0) := by
  induction trades with
  | nil => rfl
  | cons t ts ih =>
      cases h : t.pnl <;>
        simp [List.filterMap_cons, List.filter_cons, h, ih]

/-- C3: `total_pnl` is the sum of pnl over all trades with non-null pnl,
independent of each trade's status (an OPEN trade with non-null pnl counts),
and is 0 on the empty set of trades. -/
theorem total_pnl_ignores_status (trades : List Trade) :
    total_pnl trades =
      ((trades.filter (fun t => t.pnl.isSome)).map (fun t => t.pnl.getD 0)).sum ∧
    (∀ s, total_pnl (trades.map (fun t => set_status t s)) = total_pnl trades) ∧
    total_pnl [] = 0 := by
  refine ⟨by rw [total_pnl, filterMap_pnl_eq], ?_, rfl⟩
  intro s
  rw [total_pnl, total_pnl, List.filterMap_map]
  rfl

/-- C5: `total_investment` is the sum of `entry_price * quantity` over all
trades, open and closed, and is invariant under permutation of the trade list —
in particular under every resolved sort order. -/
theorem total_investment_perm_invariant (trades : List Trade) :
    total_investment trades = (trades.map (fun t => t.entry_price * t.quantity)).sum ∧
    (∀ l : List Trade, l.Perm trades → total_investment l = total_investment trades) ∧
    (∀ sort_by order, total_investment (sortTrades trades sort_by order) =
      total_investment trades) := by
  refine ⟨rfl, ?_, ?_⟩
  · intro l h
    exact (h.map (fun t => t.entry_price * t.quantity)).sum_eq
  · intro sort_by order
    exact ((perm_order_trades _ trades).map (fun t => t.entry_price * t.quantity)).sum_eq

/-- C6: `net_worth` in the view model is the user's portfolio's current
balance when that portfolio exists, and 0 when the user has none. -/
theorem net_worth_from_portfolio (db : Db) (req : Request) :
    (∀ p, db.portfolios.find? (fun q => q.user == req.user_id) = some p →
      (trade_list db req).1.net_worth = p.current_balance) ∧
    (db.portfolios.find? (fun q => q.user == req.user_id) = none →
      (trade_list db req).1.net_worth = 0) := by
  constructor
  · intro p hp
    show net_worth (db.portfolios.find? (fun q => q.user == req.user_id)) = _
    rw [hp]
    rfl
  · intro hn
    show net_worth (db.portfolios.find? (fun q => q.user == req.user_id)) = _
    rw [hn]
    rfl

/-- C8: the view is read-only: the persisted state after `trade_list` is
exactly the state before it, for every database and request. -/
theorem trade_list_read_only (db : Db) (req : Request) :
    (trade_list db req).2 = db := rfl

/-- C10: `current_sort` and `current_order` echo the raw request parameters
(after their defaults), not the resolved sort: for an unrecognized `sort_by`
the reported values are the raw strings even though the trades were sorted by
entry date descending. -/
theorem current_sort_echoes_params (db : Db) (req : Request) :
    (trade_list db req).1.current_sort = req.sort_by_param.getD "entry_date" ∧
    (trade_list db req).1.current_order = req.order_param.getD "desc" ∧
    (∀ uid sb ord, sb ≠ "symbol" → sb ≠ "status" →
      (trade_list db ⟨uid, some sb, some ord⟩).1.current_sort = sb ∧
      (trade_list db ⟨uid, some sb, some ord⟩).1.current_order = ord ∧
      (trade_list db ⟨uid, some sb, some ord⟩).1.trades.Pairwise
        (fun a b => b.entry_date ≤ a.entry_date)) := by
  refine ⟨rfl, rfl, ?_⟩
  intro uid sb ord h1 h2
  refine ⟨rfl, rfl, ?_⟩
  show (sortTrades _ ((some sb).getD "entry_date") ((some ord).getD "desc")).Pairwise _
  rw [Option.getD_some, Option.getD_some, sortTrades_fallback _ sb ord h1 h2]
  exact pairwise_entry_date_desc _

/-- C2: the win rate is the percentage of winning closed trades among closed
trades, is 0 when there is no closed trade, and always lies within [0, 100]. -/
theorem win_rate_formula_and_bounds (trades : List Trade) :
    (closed_trades trades ≠ [] →
      win_rate trades =
        ((winning_trades trades).length : ℚ) /
          ((closed_trades trades).length : ℚ) * 100) ∧
    (closed_trades trades = [] → win_rate trades = 0) ∧
    0 ≤ win_rate trades ∧ win_rate trades ≤ 100 := by
  have hsub : (winning_trades trades).length ≤ (closed_trades trades).length :=
    List.length_filter_le _ _
  refine ⟨fun h => by rw [win_rate, if_pos h],
    fun h => by rw [win_rate, if_neg (by simp [h])], ?_, ?_⟩
  · rw [win_rate]
    split_ifs
    · positivity
    · exact le_refl 0
  · rw [win_rate]
    split_ifs with h
    · have hpos : (0 : ℚ) < ((closed_trades trades).length : ℚ) := by
        have : 0 < (closed_trades trades).length := List.length_pos.mpr h
        exact_mod_cast this
      have hdiv : ((winning_trades trades).length : ℚ) /
          ((closed_trades trades).length : ℚ) ≤ 1 := by
        rw [div_le_one hpos]
        exact_mod_cast hsub
      calc ((winning_trades trades).length : ℚ) /
          ((closed_trades trades).length : ℚ) * 100
        ≤ 1 * 100 := mul_le_mul_of_nonneg_right hdiv (by norm_num)
        _ = 100 := one_mul 100
    · norm_num

lemma foldl_first_max {α : Type} (key : α → ℚ) :
    ∀ (ts : List α) (t : α),
      ∃ l1 l2,
        t :: ts = l1 ++ (ts.foldl (fun b u => if key b < key u then u else b) t) :: l2 ∧
        (∀ u ∈ l1, key u < key (ts.foldl (fun b u => if key b < key u then u else b) t)) ∧
        (∀ u ∈ l2, key u ≤ key (ts.foldl (fun b u => if key b < key u then u else b) t)) := by
  intro ts
  induction ts with
  | nil =>
      intro t
      exact ⟨[], [], rfl, by simp, by simp⟩
  | cons u us ih =>
      intro t
      by_cases h : key t < key u
      · have hstep : (u :: us).foldl (fun b v => if key b < key v then v else b) t
            = us.foldl (fun b v => if key b < key v then v else b) u := by
          simp [List.foldl_cons, if_pos h]
        obtain ⟨l1, l2, heq, hl1, hl2⟩ := ih u
        rw [hstep]
        have hur : key u ≤ key (us.foldl (fun b v => if key b < key v then v else b) u) := by
          cases l1 with
          | nil =>
              have : u = us.foldl (fun b v => if key b < key v then v else b) u :=
                (List.cons.injEq _ _ _ _).mp heq |>.1
              rw [← this]
          | cons a l1' =>
              have ha : u = a := (List.cons.injEq _ _ _ _).mp heq |>.1
              exact le_of_lt (hl1 a (by simp) |>.trans_le (le_refl _) |> (ha ▸ ·))
        refine ⟨t :: l1, l2, ?_, ?_, hl2⟩
        · rw [List.cons_append, ← heq]
        · intro x hx
          rcases List.mem_cons.mp hx with rfl | hx'
          · exact lt_of_lt_of_le h hur
          · exact hl1 x hx'
      · have hstep : (u :: us).foldl (fun b v => if key b < key v then v else b) t
            = us.foldl (fun b v => if key b < key v then v else b) t := by
          simp [List.foldl_cons, if_neg h]
        obtain ⟨l1, l2, heq, hl1, hl2⟩ := ih t
        rw [hstep]
        cases l1 with
        | nil =>
            have ht : t = us.foldl (fun b v => if key b < key v then v else b) t :=
              (List.cons.injEq _ _ _ _).mp heq |>.1
            have hus : us = l2 := (List.cons.injEq _ _ _ _).mp heq |>.2
            refine ⟨[], u :: us, ?_, by simp, ?_⟩
            · rw [List.nil_append, ← ht]
            · intro x hx
              rcases List.mem_cons.mp hx with rfl | hx'
              · exact le_of_not_lt h |>.trans (ht ▸ le_refl _)
              · exact hl2 x (hus ▸ hx')
        | cons a l1' =>
            have hta : t = a := (List.cons.injEq _ _ _ _).mp heq |>.1
            have hus : us = l1' ++ us.foldl (fun b v => if key b < key v then v else b) t :: l2 :=
              (List.cons.injEq _ _ _ _).mp heq |>.2
            have htr : key t < key (us.foldl (fun b v => if key b < key v then v else b) t) :=
              hta ▸ hl1 a (by simp)
            refine ⟨t :: u :: l1', l2, ?_, ?_, hl2⟩
            · rw [List.cons_append, List.cons_append]
              exact congrArg (t :: ·) (congrArg (u :: ·) hus)
            · intro x hx
              rcases List.mem_cons.mp hx with rfl | hx'
              · exact htr
              · rcases List.mem_cons.mp hx' with rfl | hx''
                · exact lt_of_le_of_lt (le_of_not_lt h) htr
                · exact hl1 x (hta ▸ List.mem_cons_of_mem a hx'')

/-- C4: `best_performer` is the closed trade with maximum pnl among closed
trades with non-null pnl, is `none` when there is no such trade, on ties is the
first maximum in the input order (everything strictly before it is strictly
smaller), and when present its pnl is ≥ every closed trade's non-null pnl. -/
theorem best_performer_max (trades : List Trade) :
    (closed_with_pnl trades = [] → best_performer trades = none) ∧
    (closed_with_pnl trades ≠ [] →
      ∃ b l1 l2, best_performer trades = some b ∧
        closed_with_pnl trades = l1 ++ b :: l2 ∧
        (∀ u ∈ l1, u.pnl.getD 0 < b.pnl.getD 0) ∧
        (∀ u ∈ l2, u.pnl.getD 0 ≤ b.pnl.getD 0)) ∧
    (∀ b, best_performer trades = some b →
      b ∈ closed_trades trades ∧ b.pnl.isSome = true ∧
      ∀ t ∈ closed_trades trades, ∀ p, t.pnl = some p → p ≤ b.pnl.getD 0) := by
  cases hc : closed_with_pnl trades with
  | nil =>
      refine ⟨fun _ => by rw [best_performer, hc], fun h => absurd rfl h, ?_⟩
      intro b hb
      rw [best_performer, hc] at hb
      exact absurd hb (by simp)
  | cons t ts =>
      obtain ⟨l1, l2, heq, hl1, hl2⟩ := foldl_first_max (fun x => x.pnl.getD 0) ts t
      have hbest : best_performer trades
          = some (ts.foldl (fun b u => if b.pnl.getD 0 < u.pnl.getD 0 then u else b) t) := by
        rw [best_performer, hc]
      refine ⟨fun h => absurd h (by simp), ?_, ?_⟩
      · intro _
        exact ⟨_, l1, l2, hbest, heq, hl1, hl2⟩
      · intro b hb
        have hbval : b = ts.foldl (fun b u => if b.pnl.getD 0 < u.pnl.getD 0 then u else b) t := by
          rw [hbest] at hb
          exact (Option.some.injEq _ _).mp hb |>.symm
        have hbmem : b ∈ closed_with_pnl trades := by
          rw [hc, heq, ← hbval]
          exact List.mem_append_right _ (List.mem_cons_self _ _)
        have hbfilter := List.mem_filter.mp (by rwa [closed_with_pnl] at hbmem)
        refine ⟨hbfilter.1, hbfilter.2, ?_⟩
        intro u hu p hp
        have humem : u ∈ closed_with_pnl trades :=
          List.mem_filter.mpr ⟨hu, by rw [hp]; rfl⟩
        have hup : u.pnl.getD 0 = p := by rw [hp]; rfl
        rw [hc, heq] at humem
        rcases List.mem_append.mp humem with h1 | h2
        · exact hup ▸ hbval ▸ le_of_lt (hl1 u h1)
        · rcases List.mem_cons.mp h2 with rfl | h3
          · exact hup ▸ hbval ▸ le_refl _
          · exact hup ▸ hbval ▸ hl2 u h3

/-- C9: a positive pnl is not required for `best_performer`: as soon as some
closed trade has a non-null pnl it is present, even when every such pnl is ≤ 0,
in which case there is no winning trade and the win rate is 0. -/
theorem best_performer_without_win (trades : List Trade)
    (h1 : closed_with_pnl trades ≠ [])
    (h2 : ∀ t ∈ closed_with_pnl trades, t.pnl.getD 0 ≤ 0) :
    (best_performer trades).isSome = true ∧
    winning_trades trades = [] ∧ win_rate trades = 0 := by
  have hwin : winning_trades trades = [] := by
    rw [winning_trades, List.filter_eq_nil_iff]
    intro t ht
    cases hp : t.pnl with
    | none => simp
    | some p =>
        simp only [hp, Bool.and_eq_true, Bool.not_eq_true', decide_eq_false_iff_not,
          decide_eq_true_eq, not_and, not_lt]
        intro hne
        have htm : t ∈ closed_with_pnl trades :=
          List.mem_filter.mpr ⟨ht, by rw [hp]; rfl⟩
        have hle := h2 t htm
        rw [hp] at hle
        simpa using hle
  refine ⟨?_, hwin, ?_⟩
  · cases hc : closed_with_pnl trades with
    | nil => exact absurd hc h1
    | cons t ts => rw [best_performer, hc]; rfl
  · rw [win_rate]
    split_ifs with hcl
    · rw [hwin]
      simp
    · rfl

/-- A single losing closed trade, the concrete input for the C9 witness. -/
def losingTrade : Trade := ⟨1, "AAPL", 0, "CLOSED", 10, 2, some (-5)⟩

/-- C9 witness: one closed trade with pnl −5 has a best performer but no
winning trade and a win rate of 0. -/
theorem best_performer_without_win_witness :
    (best_performer [losingTrade]).isSome = true ∧
    winning_trades [losingTrade] = [] ∧ win_rate [losingTrade] = 0 :=
  best_performer_without_win [losingTrade]
    (by decide)
    (by
      intro t ht
      rw [show closed_with_pnl [losingTrade] = [losingTrade] from rfl] at ht
      obtain rfl := List.mem_singleton.mp ht
      simp [losingTrade])

/-- First scenario trade: closed with pnl 100. -/
def scenarioTrade1 : Trade := ⟨1, "AAA", 3, "CLOSED", 10, 1, some 100⟩

/-- Second scenario trade: closed with pnl −20. -/
def scenarioTrade2 : Trade := ⟨1, "BBB", 2, "CLOSED", 20, 1, some (-20)⟩

/-- Third scenario trade: open with null pnl. -/
def scenarioTrade3 : Trade := ⟨1, "CCC", 1, "OPEN", 30, 1, none⟩

/-- The three-trade scenario input. -/
def scenarioTrades : List Trade := [scenarioTrade1, scenarioTrade2, scenarioTrade3]

/-- C7: on the scenario (CLOSED pnl 100, CLOSED pnl −20, OPEN pnl null) the
aggregation yields total pnl 80, 2 closed trades, 1 winning trade, win rate 50
and the pnl-100 trade as best performer; on zero trades every aggregate is 0
and there is no best performer. -/
theorem scenario_aggregates :
    total_pnl scenarioTrades = 80 ∧
    (closed_trades scenarioTrades).length = 2 ∧
    (winning_trades scenarioTrades).length = 1 ∧
    win_rate scenarioTrades = 50 ∧
    best_performer scenarioTrades = some scenarioTrade1 ∧
    total_pnl [] = 0 ∧ total_investment [] = 0 ∧ win_rate [] = 0 ∧
    best_performer [] = none := by
  have hc : closed_trades scenarioTrades = [scenarioTrade1, scenarioTrade2] := rfl
  have hw : winning_trades scenarioTrades = [scenarioTrade1] := rfl
  refine ⟨?_, rfl, rfl, ?_, rfl, rfl, rfl, rfl, rfl⟩
  · show ((scenarioTrades.filterMap (fun t => t.pnl)).sum : ℚ) = 80
    rw [show scenarioTrades.filterMap (fun t => t.pnl) = [(100 : ℚ), -20] from rfl]
    norm_num
  · rw [win_rate, if_pos (by rw [hc]; simp), hw, hc]
    norm_num
